import Mathlib

set_option maxRecDepth 40000

/-!
# Shallow embedding of `pitchconv` (src/pitch.rs, src/error.rs)

Strings are modelled as `List Char`. The two anchored regexes of the source
are modelled as deterministic shape checks; both are anchored (`^...$`) and
the register alphabet (lowercase letters and digits) is disjoint from the
pitch-class alphabet (`A`..`G` and `#`), so the split between the register
token and the class spelling is the position of the first `A`..`G` character
and the regex match is equivalent to the shape checks below. Machine
integers are modelled as `Nat` with explicit reduction modulo the width
where overflow can occur (the `usize` wrap of `base_octave - 1`, release
semantics, and the `u16` width of the rendering correction).
-/

namespace Pitchconv

/-- Embeds `ParsePitchClassError` (src/error.rs): a single unit-like error value. -/
structure ParsePitchClassError where
deriving DecidableEq

/-- Embeds `ParsePitchError` (src/error.rs): the unified parse-error value;
`ParseIntError` and `ParsePitchClassError` both convert into it, forgetting
the original failure reason. -/
structure ParsePitchError where
deriving DecidableEq

/-- Embeds `enum PitchClass` (src/pitch.rs lines 5-19): the 12 chromatic classes. -/
inductive PitchClass where
  | C
  | CSharp
  | D
  | DSharp
  | E
  | F
  | FSharp
  | G
  | GSharp
  | A
  | ASharp
  | B
deriving DecidableEq

/-- Embeds `PitchClass::as_str` (src/pitch.rs lines 22-37): the canonical
sharp-only spelling of each class. -/
def PitchClass.as_str : PitchClass → List Char
  | .C => ['C']
  | .CSharp => ['C', '#']
  | .D => ['D']
  | .DSharp => ['D', '#']
  | .E => ['E']
  | .F => ['F']
  | .FSharp => ['F', '#']
  | .G => ['G']
  | .GSharp => ['G', '#']
  | .A => ['A']
  | .ASharp => ['A', '#']
  | .B => ['B']

/-- The spec's name (§6) for `PitchClass::as_str`. -/
def render_pitch_class (pc : PitchClass) : List Char :=
  pc.as_str

/-- Embeds `parse_pitch_class` (src/pitch.rs lines 54-72): exact, case-sensitive
match against the 12 canonical spellings. -/
def parse_pitch_class (s : List Char) : Except ParsePitchClassError PitchClass :=
  if s = ['C'] then .ok .C
  else if s = ['C', '#'] then .ok .CSharp
  else if s = ['D'] then .ok .D
  else if s = ['D', '#'] then .ok .DSharp
  else if s = ['E'] then .ok .E
  else if s = ['F'] then .ok .F
  else if s = ['F', '#'] then .ok .FSharp
  else if s = ['G'] then .ok .G
  else if s = ['G', '#'] then .ok .GSharp
  else if s = ['A'] then .ok .A
  else if s = ['A', '#'] then .ok .ASharp
  else if s = ['B'] then .ok .B
  else .error ⟨⟩

/-- Embeds `struct Pitch` (src/pitch.rs lines 74-78). `octave` models the `u8`
field; every `Pitch` the program constructs has `octave ≤ 255`, which theorems
carry as a hypothesis. -/
structure Pitch where
  octave : Nat
  pitch_class : PitchClass
deriving DecidableEq

/-- Embeds `enum PitchFormat` (src/pitch.rs lines 110-114). -/
inductive PitchFormat where
  | Scientific
  | Alternative
deriving DecidableEq

/-- Embeds `struct PitchWithFormat` (src/pitch.rs lines 116-120). -/
structure PitchWithFormat where
  pitch : Pitch
  format : PitchFormat
deriving DecidableEq

/-- The character class `[A-G]` of both regexes. -/
def isUpperAG (c : Char) : Bool :=
  decide ('A' ≤ c) && decide (c ≤ 'G')

/-- A character that cannot start a pitch-class spelling (complement of `[A-G]`). -/
def notClassChar (c : Char) : Bool :=
  !(isUpperAG c)

/-- An ASCII decimal digit, the characters `[1-9]\d*` and `0` are built from. -/
def isDigitChar (c : Char) : Bool :=
  decide ('0' ≤ c) && decide (c ≤ '9')

/-- The octave group `0|([1-9]\d*)` of the scientific regex (src/pitch.rs line
145): the literal `"0"`, or a nonzero leading digit followed by digits. -/
def isOctaveShape : List Char → Bool
  | [] => false
  | c :: rest =>
    if c = '0' then rest.isEmpty
    else (decide ('1' ≤ c) && decide (c ≤ '9')) && rest.all isDigitChar

/-- Numeric value of a decimal digit string; `"256".parse::<u8>()` fails exactly
when this value exceeds 255. -/
def digitsVal (ds : List Char) : Nat :=
  ds.foldl (fun a c => a * 10 + (c.toNat - 48)) 0

/-- The group `[A-G][#]?` of both regexes: one class letter, optionally sharped. -/
def isClassShape : List Char → Bool
  | [c] => isUpperAG c
  | [c, d] => isUpperAG c && decide (d = '#')
  | _ => false

/-- Embeds `parse_scientific_pitch_notation` (src/pitch.rs lines 144-159):
match `^([A-G][#]?)(0|[1-9]\d*)$`, parse the octave as `u8` (error above 255),
then parse the class capture. The optional `#` is taken greedily, as the regex
does; a digit can never be `#`, so this is the unique split. -/
def parse_scientific (s : List Char) : Except ParsePitchError Pitch :=
  match s with
  | [] => .error ⟨⟩
  | c :: rest =>
    if isUpperAG c then
      if isOctaveShape (if rest.head? = some '#' then rest.tail else rest) then
        if digitsVal (if rest.head? = some '#' then rest.tail else rest) ≤ 255 then
          match parse_pitch_class (if rest.head? = some '#' then [c, '#'] else [c]) with
          | .ok pc => .ok ⟨digitsVal (if rest.head? = some '#' then rest.tail else rest), pc⟩
          | .error _ => .error ⟨⟩
        else .error ⟨⟩
      else .error ⟨⟩
    else .error ⟨⟩

/-- `(hi)*` as a trailing run: pairs of `h`, `i` until the list ends. -/
def isHiTail : List Char → Bool
  | [] => true
  | [_] => false
  | a :: b :: rest => decide (a = 'h') && decide (b = 'i') && isHiTail rest

/-- The `(hi)+` alternative of the register group: at least one `hi` pair. -/
def isHiRun (l : List Char) : Bool :=
  !l.isEmpty && isHiTail l

/-- The register group `low|lowlow|lowlowlow|mid[12]|(hi)+` of the alternative
regex (src/pitch.rs line 163). -/
def isRegisterShape (reg : List Char) : Bool :=
  reg == "low".data || reg == "lowlow".data || reg == "lowlowlow".data ||
  reg == "mid1".data || reg == "mid2".data || isHiRun reg

/-- Embeds `s.matches("hi").count()` (src/pitch.rs line 182): the number of
non-overlapping left-to-right occurrences of `hi`. -/
def countHi : List Char → Nat
  | [] => 0
  | [_] => 0
  | a :: b :: rest =>
    if a = 'h' ∧ b = 'i' then countHi rest + 1 else countHi (b :: rest)

/-- Embeds the `base_octave` match (src/pitch.rs lines 175-190): the five named
registers, else the `hi`-count branch with its `count == 0` early error. -/
def base_octave_of (reg : List Char) : Option Nat :=
  if reg == "lowlowlow".data then some 0
  else if reg == "lowlow".data then some 1
  else if reg == "low".data then some 2
  else if reg == "mid1".data then some 3
  else if reg == "mid2".data then some 4
  else if countHi reg = 0 then none
  else some (countHi reg + 4)

/-- The A/A#/B case of the octave-correction matches (src/pitch.rs lines
192-195 and 222-225). -/
def isHighClass : PitchClass → Bool
  | .A | .ASharp | .B => true
  | _ => false

/-- Embeds `parse_alternative_pitch_notation` (src/pitch.rs lines 161-206):
match `^(low|lowlow|lowlowlow|mid[12]|(hi)+)([A-G][#]?)$` (the split is at the
first `A`..`G` character, which is where the regex must place it), parse the
class capture, map the register to its base octave, subtract 1 for A/A#/B —
the source's bare `usize` subtraction, modelled here with release (wrapping
mod `2^64`) semantics — and reject octaves above `u8::MAX`. -/
def parse_alternative (s : List Char) : Except ParsePitchError Pitch :=
  if isRegisterShape (s.takeWhile notClassChar) && isClassShape (s.dropWhile notClassChar) then
    match parse_pitch_class (s.dropWhile notClassChar) with
    | .error _ => .error ⟨⟩
    | .ok pc =>
      match base_octave_of (s.takeWhile notClassChar) with
      | none => .error ⟨⟩
      | some b =>
        if (if isHighClass pc then (b + (2 ^ 64 - 1)) % 2 ^ 64 else b) ≤ 255 then
          .ok ⟨if isHighClass pc then (b + (2 ^ 64 - 1)) % 2 ^ 64 else b, pc⟩
        else .error ⟨⟩
  else .error ⟨⟩

/-- True exactly when `parse_alternative_pitch_notation` reaches the expression
`base_octave - 1` (src/pitch.rs line 193) with `base_octave = 0`, i.e. when the
source's unchecked `usize` subtraction underflows (a panic under debug
assertions; a wrap to `2^64 - 1` in release builds). -/
def alt_subtraction_underflows (s : List Char) : Bool :=
  (isRegisterShape (s.takeWhile notClassChar) && isClassShape (s.dropWhile notClassChar)) &&
  (match parse_pitch_class (s.dropWhile notClassChar) with
   | .error _ => false
   | .ok pc =>
     isHighClass pc && (base_octave_of (s.takeWhile notClassChar) == some 0))

/-- Embeds `impl FromStr for PitchWithFormat` (src/pitch.rs lines 122-142), the
spec's `parse_notation` / format-detecting parser (§4.3): scientific first,
then alternative, else the unified error. -/
def detect_and_parse (s : List Char) : Except ParsePitchError PitchWithFormat :=
  match parse_scientific s with
  | .ok p => .ok ⟨p, .Scientific⟩
  | .error _ =>
    match parse_alternative s with
    | .ok p => .ok ⟨p, .Alternative⟩
    | .error _ => .error ⟨⟩

/-- The ASCII digit character for `n < 10`. -/
def digitChar (n : Nat) : Char :=
  Char.ofNat (48 + n)

/-- Decimal digits of `n`, most significant first, accumulated onto `acc`;
`fuel` only drives the recursion and any `fuel > n` is enough. -/
def toDigitsAux : Nat → Nat → List Char → List Char
  | 0, _, acc => acc
  | fuel + 1, n, acc =>
    if n < 10 then digitChar n :: acc
    else toDigitsAux fuel (n / 10) (digitChar (n % 10) :: acc)

/-- The decimal rendering of `n` with no leading zeros, as `u8: Display`
produces for the octave (src/pitch.rs line 213). -/
def natToChars (n : Nat) : List Char :=
  toDigitsAux (n + 1) n []

/-- Embeds `impl Display for ScientificPitchNotation` (src/pitch.rs lines
211-215): class spelling, then decimal octave, no separator. -/
def render_scientific (p : Pitch) : List Char :=
  p.pitch_class.as_str ++ natToChars p.octave

/-- `n` copies of the `hi` unit, as the render loop writes them. -/
def hiChars : Nat → List Char
  | 0 => []
  | n + 1 => 'h' :: 'i' :: hiChars n

/-- The register word for corrected octave `o`: the five named registers,
else `o - 4` copies of `hi` (src/pitch.rs lines 227-238; for `o = n + 5` the
source's `o - 4` is `n + 1`). -/
def register_chars : Nat → List Char
  | 0 => "lowlowlow".data
  | 1 => "lowlow".data
  | 2 => "low".data
  | 3 => "mid1".data
  | 4 => "mid2".data
  | n + 5 => hiChars (n + 1)

/-- The corrected register value of the render side (src/pitch.rs lines
222-225): `octave as u16 + 1` for A/A#/B, else `octave as u16`; the reduction
mod `2^16` records the `u16` width in which the source computes it. -/
def corrected_octave (p : Pitch) : Nat :=
  if isHighClass p.pitch_class then (p.octave + 1) % 2 ^ 16
  else p.octave % 2 ^ 16

/-- Embeds `impl Display for AlternativePitchNotation` (src/pitch.rs lines
220-242): register word of the corrected octave, then the class spelling. -/
def render_alternative (p : Pitch) : List Char :=
  register_chars (corrected_octave p) ++ p.pitch_class.as_str

/-- ASCII lower-casing of one character, as `str::to_lowercase` acts on the
ASCII range all valid notation strings live in. -/
def lowerChar (c : Char) : Char :=
  if decide ('A' ≤ c) && decide (c ≤ 'Z') then Char.ofNat (c.toNat + 32) else c

/-- ASCII lower-casing of a string. -/
def lowerChars (s : List Char) : List Char :=
  s.map lowerChar

/-! ## Character and list helper lemmas -/

/-- `Char` order is the order of the scalar values. -/
theorem char_le_iff {a b : Char} : a ≤ b ↔ a.toNat ≤ b.toNat := by
  rw [Char.le_def, UInt32.le_def, BitVec.le_def]
  exact Iff.rfl

/-- `Char.ofNat` on a valid scalar value round-trips through `toNat`. -/
theorem toNat_ofNat_valid {n : Nat} (h : n.isValidChar) : (Char.ofNat n).toNat = n := by
  rw [Char.ofNat, dif_pos h]
  rfl

/-- `takeWhile` passes over a block that satisfies the predicate. -/
theorem takeWhile_append_all (p : Char → Bool) (l1 l2 : List Char)
    (h : ∀ c ∈ l1, p c = true) :
    (l1 ++ l2).takeWhile p = l1 ++ l2.takeWhile p := by
  induction l1 with
  | nil => simp
  | cons a t ih =>
      simp only [List.cons_append, List.takeWhile_cons_of_pos (h a (List.mem_cons_self a t)),
        List.cons_inj_right]
      exact ih fun c hc => h c (List.mem_cons_of_mem a hc)

/-- `dropWhile` drops a whole block that satisfies the predicate. -/
theorem dropWhile_append_all (p : Char → Bool) (l1 l2 : List Char)
    (h : ∀ c ∈ l1, p c = true) :
    (l1 ++ l2).dropWhile p = l2.dropWhile p := by
  induction l1 with
  | nil => simp
  | cons a t ih =>
      simp only [List.cons_append, List.dropWhile_cons_of_pos (h a (List.mem_cons_self a t))]
      exact ih fun c hc => h c (List.mem_cons_of_mem a hc)

/-! ## Pitch-class codec lemmas -/

/-- Parsing the canonical spelling of a class recovers the class. -/
theorem parse_pitch_class_as_str (pc : PitchClass) : parse_pitch_class pc.as_str = .ok pc := by
  cases pc <;> rfl

/-- Every canonical spelling matches the `[A-G][#]?` group. -/
theorem isClassShape_as_str (pc : PitchClass) : isClassShape pc.as_str = true := by
  cases pc <;> rfl

/-- A canonical spelling starts with a class character. -/
theorem takeWhile_as_str (pc : PitchClass) : pc.as_str.takeWhile notClassChar = [] := by
  cases pc <;> rfl

/-- `dropWhile notClassChar` keeps a canonical spelling whole. -/
theorem dropWhile_as_str (pc : PitchClass) : pc.as_str.dropWhile notClassChar = pc.as_str := by
  cases pc <;> rfl

/-! ## Alternative-grammar lemmas -/

/-- Every character of a `hi` run is outside `[A-G]`. -/
theorem hiChars_all_notClassChar (k : Nat) : ∀ c ∈ hiChars k, notClassChar c = true := by
  induction k with
  | zero => simp [hiChars]
  | succ k ih =>
      intro c hc
      simp only [hiChars, List.mem_cons] at hc
      rcases hc with rfl | rfl | hc
      · rfl
      · rfl
      · exact ih c hc

/-- A `hi` run satisfies the trailing-run check. -/
theorem isHiTail_hiChars (k : Nat) : isHiTail (hiChars k) = true := by
  induction k with
  | zero => rfl
  | succ k ih =>
      rw [hiChars, isHiTail]
      simp [ih]

/-- A nonempty `hi` run matches the `(hi)+` alternative. -/
theorem isHiRun_hiChars (k : Nat) : isHiRun (hiChars (k + 1)) = true := by
  simp only [isHiRun, isHiTail_hiChars (k + 1), Bool.and_true]
  rw [hiChars]
  rfl

/-- The `hi`-count of a `hi` run is its number of repetitions. -/
theorem countHi_hiChars (k : Nat) : countHi (hiChars k) = k := by
  induction k with
  | zero => rfl
  | succ k ih =>
      rw [hiChars, countHi]
      simp [ih]

/-- A nonempty `hi` run differs from any word that does not start with `h`. -/
theorem hiChars_ne (k : Nat) (w : List Char) (hw : w.head? ≠ some 'h') :
    hiChars (k + 1) ≠ w := by
  intro h
  apply hw
  rw [← h]
  rfl

/-- The register match sends a nonempty `hi` run to octave `count + 4`. -/
theorem base_octave_of_hiChars (k : Nat) : base_octave_of (hiChars (k + 1)) = some (k + 5) := by
  have h1 := hiChars_ne k "lowlowlow".data (by decide)
  have h2 := hiChars_ne k "lowlow".data (by decide)
  have h3 := hiChars_ne k "low".data (by decide)
  have h4 := hiChars_ne k "mid1".data (by decide)
  have h5 := hiChars_ne k "mid2".data (by decide)
  simp only [base_octave_of, beq_eq_false_iff_ne.mpr h1, beq_eq_false_iff_ne.mpr h2,
    beq_eq_false_iff_ne.mpr h3, beq_eq_false_iff_ne.mpr h4, beq_eq_false_iff_ne.mpr h5,
    Bool.false_eq_true, if_false, countHi_hiChars]
  simp [Nat.add_comm]

/-- A nonempty `hi` run matches the register group. -/
theorem isRegisterShape_hiChars (k : Nat) : isRegisterShape (hiChars (k + 1)) = true := by
  simp [isRegisterShape, isHiRun_hiChars k]

/-- Every character of a register word is outside `[A-G]`. -/
theorem register_chars_all_notClassChar (n : Nat) :
    ∀ c ∈ register_chars n, notClassChar c = true := by
  match n with
  | 0 => decide
  | 1 => decide
  | 2 => decide
  | 3 => decide
  | 4 => decide
  | n + 5 => exact hiChars_all_notClassChar (n + 1)

/-- Every register word matches the register group. -/
theorem isRegisterShape_register_chars (n : Nat) :
    isRegisterShape (register_chars n) = true := by
  match n with
  | 0 => rfl
  | 1 => rfl
  | 2 => rfl
  | 3 => rfl
  | 4 => rfl
  | n + 5 => exact isRegisterShape_hiChars (n + 1)

/-- The register match inverts the register rendering. -/
theorem base_octave_of_register_chars (n : Nat) :
    base_octave_of (register_chars n) = some n := by
  match n with
  | 0 => rfl
  | 1 => rfl
  | 2 => rfl
  | 3 => rfl
  | 4 => rfl
  | n + 5 =>
      rw [register_chars, base_octave_of_hiChars n]

/-- A register word is never empty. -/
theorem register_chars_ne_nil (n : Nat) : register_chars n ≠ [] := by
  match n with
  | 0 => decide
  | 1 => decide
  | 2 => decide
  | 3 => decide
  | 4 => decide
  | n + 5 => simp [register_chars, hiChars]

/-- The scientific grammar rejects any input that does not open with `[A-G]`. -/
theorem parse_scientific_head_err (c : Char) (t : List Char) (h : isUpperAG c = false) :
    parse_scientific (c :: t) = .error ⟨⟩ := by
  simp [parse_scientific, h]

/-- Splitting off a register word in front of a class spelling, the alternative
parser reduces to the octave correction and the `u8` ceiling. -/
theorem parse_alternative_concat (reg : List Char) (pc : PitchClass) (b : Nat)
    (hall : ∀ c ∈ reg, notClassChar c = true)
    (hshape : isRegisterShape reg = true)
    (hbase : base_octave_of reg = some b) :
    parse_alternative (reg ++ pc.as_str) =
      if (if isHighClass pc then (b + (2 ^ 64 - 1)) % 2 ^ 64 else b) ≤ 255 then
        .ok ⟨if isHighClass pc then (b + (2 ^ 64 - 1)) % 2 ^ 64 else b, pc⟩
      else .error ⟨⟩ := by
  have ht : (reg ++ pc.as_str).takeWhile notClassChar = reg := by
    rw [takeWhile_append_all _ _ _ hall, takeWhile_as_str, List.append_nil]
  have hd : (reg ++ pc.as_str).dropWhile notClassChar = pc.as_str := by
    rw [dropWhile_append_all _ _ _ hall, dropWhile_as_str]
  simp only [parse_alternative, ht, hd, hshape, isClassShape_as_str, Bool.and_self, if_true,
    parse_pitch_class_as_str, hbase]

/-- The alternative parser inverts the alternative renderer on every
representable octave. -/
theorem parse_alternative_render (p : Pitch) (h : p.octave ≤ 255) :
    parse_alternative (render_alternative p) = .ok p := by
  obtain ⟨o, pc⟩ := p
  simp only [Pitch.octave] at h
  by_cases hpc : isHighClass pc = true
  · have hco : corrected_octave ⟨o, pc⟩ = o + 1 := by
      simp only [corrected_octave, if_pos hpc]
      omega
    rw [render_alternative, hco,
      parse_alternative_concat _ pc (o + 1) (register_chars_all_notClassChar _)
        (isRegisterShape_register_chars _) (base_octave_of_register_chars _)]
    have hw : (o + 1 + (2 ^ 64 - 1)) % 2 ^ 64 = o := by omega
    rw [if_pos hpc, hw, if_pos h]
  · have hco : corrected_octave ⟨o, pc⟩ = o := by
      simp only [corrected_octave, if_neg hpc]
      omega
    rw [render_alternative, hco,
      parse_alternative_concat _ pc o (register_chars_all_notClassChar _)
        (isRegisterShape_register_chars _) (base_octave_of_register_chars _)]
    rw [if_neg hpc, if_pos h]

/-! ## Scientific-grammar lemmas -/

/-- Digit characters are digits. -/
theorem digitChar_isDigit : ∀ n < 10, isDigitChar (digitChar n) = true := by decide

/-- Scalar value of a digit character. -/
theorem digitChar_toNat : ∀ n < 10, (digitChar n).toNat = 48 + n := by decide

/-- A single digit is a well-formed octave string. -/
theorem isOctaveShape_single : ∀ n < 10, isOctaveShape [digitChar n] = true := by decide

/-- Value of a single-digit octave string. -/
theorem digitsVal_single : ∀ n < 10, digitsVal [digitChar n] = n := by decide

/-- Appending one digit multiplies the value by ten and adds the digit. -/
theorem digitsVal_append_digit (ds : List Char) (d : Char) :
    digitsVal (ds ++ [d]) = digitsVal ds * 10 + (d.toNat - 48) := by
  simp [digitsVal, List.foldl_append]

/-- Appending a digit to a nonzero well-formed octave string keeps it
well-formed (the leading digit stays nonzero). -/
theorem isOctaveShape_append_digit (ds : List Char) (d : Char)
    (hds : isOctaveShape ds = true) (hpos : 1 ≤ digitsVal ds) (hd : isDigitChar d = true) :
    isOctaveShape (ds ++ [d]) = true := by
  cases ds with
  | nil => exact absurd hds (by simp [isOctaveShape])
  | cons c rest =>
      by_cases hc : c = '0'
      · subst hc
        rw [isOctaveShape, if_pos rfl] at hds
        have hrest : rest = [] := by simpa using hds
        subst hrest
        exact absurd hpos (by decide)
      · rw [isOctaveShape, if_neg hc] at hds
        rw [List.cons_append, isOctaveShape, if_neg hc]
        rw [Bool.and_eq_true] at hds
        simp [List.all_append, hds.1, hds.2, hd]

/-- `toDigitsAux` pushes onto the accumulator the digits of `n`: a well-formed
octave string whose value is `n` (any fuel above `n` suffices). -/
theorem toDigitsAux_spec : ∀ fuel n acc, n < fuel →
    ∃ ds, toDigitsAux fuel n acc = ds ++ acc ∧ isOctaveShape ds = true ∧ digitsVal ds = n := by
  intro fuel
  induction fuel with
  | zero => intro n acc h; exact absurd h (by omega)
  | succ fuel ih =>
      intro n acc h
      by_cases h10 : n < 10
      · refine ⟨[digitChar n], ?_, isOctaveShape_single n h10, digitsVal_single n h10⟩
        rw [toDigitsAux, if_pos h10]
        rfl
      · have hdiv : n / 10 < fuel := by
          have h2 : n / 10 < n := Nat.div_lt_self (by omega) (by omega)
          omega
        obtain ⟨ds, he, hs, hv⟩ := ih (n / 10) (digitChar (n % 10) :: acc) hdiv
        refine ⟨ds ++ [digitChar (n % 10)], ?_, ?_, ?_⟩
        · rw [toDigitsAux, if_neg h10, he, List.append_assoc]
          rfl
        · refine isOctaveShape_append_digit ds _ hs ?_ (digitChar_isDigit (n % 10) (by omega))
          rw [hv]
          omega
        · rw [digitsVal_append_digit, hv, digitChar_toNat (n % 10) (by omega)]
          omega

/-- The decimal rendering of `n` is a well-formed octave string of value `n`. -/
theorem natToChars_spec (n : Nat) :
    isOctaveShape (natToChars n) = true ∧ digitsVal (natToChars n) = n := by
  obtain ⟨ds, he, hs, hv⟩ := toDigitsAux_spec (n + 1) n [] (by omega)
  rw [natToChars, he, List.append_nil]
  exact ⟨hs, hv⟩

/-- A well-formed octave string cannot start with `#`. -/
theorem isOctaveShape_head_ne_sharp (ds : List Char) (h : isOctaveShape ds = true) :
    ds.head? ≠ some '#' := by
  cases ds with
  | nil => simp
  | cons c rest =>
      simp only [List.head?_cons, ne_eq, Option.some.injEq]
      intro hc
      subst hc
      rw [isOctaveShape] at h
      simp at h

/-- A class letter followed by a sharpless octave string: the scientific parser
reduces to the ceiling check and the class lookup. -/
theorem parse_scientific_nosharp (c : Char) (ds : List Char)
    (hc : isUpperAG c = true) (hds : isOctaveShape ds = true) (hh : ds.head? ≠ some '#') :
    parse_scientific (c :: ds) =
      if digitsVal ds ≤ 255 then
        match parse_pitch_class [c] with
        | .ok pc => .ok ⟨digitsVal ds, pc⟩
        | .error _ => .error ⟨⟩
      else .error ⟨⟩ := by
  rw [parse_scientific]
  simp only [if_pos hc, if_neg hh, if_pos hds]

/-- A sharped class letter followed by an octave string: the scientific parser
reduces to the ceiling check and the class lookup. -/
theorem parse_scientific_sharp (c : Char) (ds : List Char)
    (hc : isUpperAG c = true) (hds : isOctaveShape ds = true) :
    parse_scientific (c :: '#' :: ds) =
      if digitsVal ds ≤ 255 then
        match parse_pitch_class [c, '#'] with
        | .ok pc => .ok ⟨digitsVal ds, pc⟩
        | .error _ => .error ⟨⟩
      else .error ⟨⟩ := by
  rw [parse_scientific]
  simp only [if_pos hc, List.head?_cons, if_pos rfl, List.tail_cons, if_true, if_pos hds]

/-- The scientific parser inverts the scientific renderer on every
representable octave. -/
theorem parse_scientific_render (p : Pitch) (h : p.octave ≤ 255) :
    parse_scientific (render_scientific p) = .ok p := by
  obtain ⟨o, pc⟩ := p
  simp only [Pitch.octave] at h
  obtain ⟨hs, hv⟩ := natToChars_spec o
  have hh := isOctaveShape_head_ne_sharp _ hs
  cases pc <;>
    simp only [render_scientific, PitchClass.as_str, List.cons_append, List.nil_append] <;>
    first
    | (rw [parse_scientific_nosharp _ _ (by decide) hs hh, hv, if_pos h]; rfl)
    | (rw [parse_scientific_sharp _ _ (by decide) hs, hv, if_pos h]; rfl)

/-- The scientific parser rejects the rendering of any octave above 255. -/
theorem parse_scientific_render_overflow (pc : PitchClass) (n : Nat) (h : 255 < n) :
    parse_scientific (render_scientific ⟨n, pc⟩) = .error ⟨⟩ := by
  obtain ⟨hs, hv⟩ := natToChars_spec n
  have hh := isOctaveShape_head_ne_sharp _ hs
  have hn : ¬ digitsVal (natToChars n) ≤ 255 := by
    rw [hv]
    omega
  cases pc <;>
    simp only [render_scientific, PitchClass.as_str, List.cons_append, List.nil_append] <;>
    first
    | rw [parse_scientific_nosharp _ _ (by decide) hs hh, if_neg hn]
    | rw [parse_scientific_sharp _ _ (by decide) hs, if_neg hn]

/-! ## Format-detection lemmas -/

/-- A scientific success short-circuits format detection. -/
theorem detect_of_scientific (s : List Char) (p : Pitch) (h : parse_scientific s = .ok p) :
    detect_and_parse s = .ok ⟨p, .Scientific⟩ := by
  simp [detect_and_parse, h]

/-- A scientific failure followed by an alternative success tags `Alternative`. -/
theorem detect_of_alternative (s : List Char) (p : Pitch)
    (hs : parse_scientific s = .error ⟨⟩) (h : parse_alternative s = .ok p) :
    detect_and_parse s = .ok ⟨p, .Alternative⟩ := by
  simp [detect_and_parse, hs, h]

/-- The `hi`-count of a string is bounded by its length. -/
theorem countHi_le_length_aux :
    ∀ (n : Nat) (l : List Char), l.length ≤ n → countHi l ≤ l.length := by
  intro n
  induction n with
  | zero =>
      intro l h
      match l with
      | [] => simp [countHi]
      | a :: t => simp at h
  | succ n ih =>
      intro l h
      match l with
      | [] => simp [countHi]
      | [a] => simp [countHi]
      | a :: b :: rest =>
          rw [countHi]
          split
          · have := ih rest (by simp only [List.length_cons] at h; omega)
            simp only [List.length_cons]
            omega
          · have := ih (b :: rest) (by simp only [List.length_cons] at h ⊢; omega)
            simp only [List.length_cons] at this ⊢
            omega

/-- The `hi`-count of a string is bounded by its length. -/
theorem countHi_le_length (l : List Char) : countHi l ≤ l.length :=
  countHi_le_length_aux l.length l (Nat.le_refl _)

/-! ## Lower-casing lemmas -/

/-- Lower-casing never produces a character in `[A-G]`: the `A`..`Z` range maps
to `a`..`z`, and everything else is untouched and was already outside `A`..`G`. -/
theorem lowerChar_not_AG (c : Char) : isUpperAG (lowerChar c) = false := by
  rw [lowerChar]
  split
  case isTrue hcond =>
      rw [Bool.and_eq_true, decide_eq_true_iff, decide_eq_true_iff] at hcond
      have h1 : 65 ≤ c.toNat := by
        have := char_le_iff.mp hcond.1
        simpa using this
      have hv : (c.toNat + 32).isValidChar := Or.inl (by
        have := char_le_iff.mp hcond.2
        have hz : ('Z' : Char).toNat = 90 := rfl
        omega)
      have ht : (Char.ofNat (c.toNat + 32)).toNat = c.toNat + 32 := toNat_ofNat_valid hv
      have hng : ¬ (Char.ofNat (c.toNat + 32) ≤ 'G') := by
        rw [char_le_iff, ht]
        have hg : ('G' : Char).toNat = 71 := rfl
        omega
      rw [isUpperAG]
      simp [hng]
  case isFalse hcond =>
      rw [isUpperAG]
      by_cases hA : 'A' ≤ c
      · have hZ : ¬ (c ≤ 'Z') := by
          intro hZ
          exact hcond (by simp [hA, hZ])
        have hG : ¬ (c ≤ 'G') := fun hG =>
          hZ (char_le_iff.mpr (le_trans (char_le_iff.mp hG) (by decide)))
        simp [hG]
      · simp [hA]

/-- Scientific parsing rejects every lower-cased string. -/
theorem parse_scientific_lower (s : List Char) : parse_scientific (lowerChars s) = .error ⟨⟩ := by
  cases s with
  | nil => rfl
  | cons c t =>
      rw [lowerChars, List.map_cons]
      exact parse_scientific_head_err _ _ (lowerChar_not_AG c)

/-- A lower-cased string has no class character at all. -/
theorem lowerChars_all_notClassChar (s : List Char) :
    ∀ c ∈ lowerChars s, notClassChar c = true := by
  intro c hc
  obtain ⟨d, _, rfl⟩ := List.mem_map.1 hc
  simp [notClassChar, lowerChar_not_AG]

/-- Alternative parsing rejects every lower-cased string. -/
theorem parse_alternative_lower (s : List Char) : parse_alternative (lowerChars s) = .error ⟨⟩ := by
  have hd : (lowerChars s).dropWhile notClassChar = [] :=
    List.dropWhile_eq_nil_iff.mpr (lowerChars_all_notClassChar s)
  simp [parse_alternative, hd, isClassShape]

/-- Format detection rejects every lower-cased string. -/
theorem detect_and_parse_lower (s : List Char) : detect_and_parse (lowerChars s) = .error ⟨⟩ := by
  simp [detect_and_parse, parse_scientific_lower s, parse_alternative_lower s]

/-- The scientific grammar rejects every alternative rendering. -/
theorem parse_scientific_render_alternative (p : Pitch) :
    parse_scientific (render_alternative p) = .error ⟨⟩ := by
  rw [render_alternative]
  cases hreg : register_chars (corrected_octave p) with
  | nil => exact absurd hreg (register_chars_ne_nil _)
  | cons c t =>
      have hc : notClassChar c = true := by
        apply register_chars_all_notClassChar (corrected_octave p)
        rw [hreg]
        exact List.mem_cons_self c t
      rw [List.cons_append]
      apply parse_scientific_head_err
      simpa [notClassChar] using hc

/-- The register match never answers more than `length + 4`. -/
theorem base_octave_of_le (reg : List Char) (b : Nat) (h : base_octave_of reg = some b) :
    b ≤ reg.length + 4 := by
  have hc := countHi_le_length reg
  simp only [base_octave_of] at h
  split at h
  · simp at h
    omega
  · split at h
    · simp at h
      omega
    · split at h
      · simp at h
        omega
      · split at h
        · simp at h
          omega
        · split at h
          · simp at h
            omega
          · split at h
            · simp at h
            · simp at h
              omega

/-- Forward analysis of an accepted alternative string: the parsed octave is
the register's base octave, minus one exactly for the classes A, A#, B. The
length bound reflects that a Rust string never exceeds `isize::MAX` bytes, so
the register arithmetic below the subtraction cannot wrap. -/
theorem parse_alternative_ok_base (s : List Char) (p : Pitch)
    (hlen : s.length ≤ 2 ^ 63 - 1) (h : parse_alternative s = .ok p) :
    ∃ b, base_octave_of (s.takeWhile notClassChar) = some b ∧
      p.octave = if isHighClass p.pitch_class then b - 1 else b := by
  simp only [parse_alternative] at h
  split at h
  · split at h
    · simp at h
    · rename_i pc heq
      split at h
      · simp at h
      · rename_i b heq2
        split at h
        · rename_i hpc
          split at h
          · rename_i hceil
            simp only [Except.ok.injEq] at h
            subst h
            have hble : b ≤ s.length + 4 := by
              have h1 := base_octave_of_le _ _ heq2
              have h2 := (List.takeWhile_sublist (l := s) notClassChar).length_le
              omega
            refine ⟨b, heq2, ?_⟩
            show (b + (2 ^ 64 - 1)) % 2 ^ 64 = if isHighClass pc then b - 1 else b
            rw [if_pos hpc]
            omega
          · simp at h
        · rename_i hpc
          split at h
          · simp only [Except.ok.injEq] at h
            subst h
            refine ⟨b, heq2, ?_⟩
            show b = if isHighClass pc then b - 1 else b
            rw [if_neg hpc]
          · simp at h
  · simp at h

/-- Format detection fails exactly when both grammars fail. -/
theorem detect_error_iff (s : List Char) :
    detect_and_parse s = .error ⟨⟩ ↔
      parse_scientific s = .error ⟨⟩ ∧ parse_alternative s = .error ⟨⟩ := by
  cases h1 : parse_scientific s with
  | ok p => simp [detect_and_parse, h1]
  | error e =>
      obtain ⟨⟩ := e
      cases h2 : parse_alternative s with
      | ok p => simp [detect_and_parse, h1, h2]
      | error e2 =>
          obtain ⟨⟩ := e2
          simp [detect_and_parse, h1, h2]

/-! ## Claim theorems -/

/-- C1: for every `Pitch` with octave in `[0, 255]`, parsing the
alternative-notation rendering succeeds, yields exactly the same pitch, and
the detected format is `Alternative`. -/
theorem alternative_round_trip (o : Nat) (pc : PitchClass) (h : o ≤ 255) :
    detect_and_parse (render_alternative ⟨o, pc⟩) = .ok ⟨⟨o, pc⟩, .Alternative⟩ :=
  detect_of_alternative _ _ (parse_scientific_render_alternative _)
    (parse_alternative_render _ h)

/-- Witness for C1 at the spec's own example `A0 ↔ lowlowA`. -/
theorem alternative_round_trip_witness :
    0 ≤ 255 ∧
      detect_and_parse (render_alternative ⟨0, .A⟩) = .ok ⟨⟨0, .A⟩, .Alternative⟩ :=
  ⟨by decide, alternative_round_trip 0 .A (by decide)⟩

/-- C2: on every accepted alternative string (of representable Rust length),
the parsed scientific octave is the register's base octave
(`lowlowlow→0, lowlow→1, low→2, mid1→3, mid2→4`, `n` repetitions of `hi` →
`4 + n`), minus 1 exactly for the classes A, A#, B; in particular `"A0"`
corresponds to `"lowlowA"` (register `lowlow`, not `lowlowlow`). -/
theorem alternative_base_octave_correction :
    (∀ (s : List Char) (p : Pitch), s.length ≤ 2 ^ 63 - 1 →
        parse_alternative s = .ok p →
        ∃ b, base_octave_of (s.takeWhile notClassChar) = some b ∧
          p.octave = if isHighClass p.pitch_class then b - 1 else b) ∧
      base_octave_of "lowlowlow".data = some 0 ∧
      base_octave_of "lowlow".data = some 1 ∧
      base_octave_of "low".data = some 2 ∧
      base_octave_of "mid1".data = some 3 ∧
      base_octave_of "mid2".data = some 4 ∧
      (∀ n : Nat, base_octave_of (hiChars (n + 1)) = some (n + 5)) ∧
      parse_scientific "A0".data = .ok ⟨0, .A⟩ ∧
      parse_alternative "lowlowA".data = .ok ⟨0, .A⟩ :=
  ⟨parse_alternative_ok_base, rfl, rfl, rfl, rfl, rfl, base_octave_of_hiChars, rfl, rfl⟩

/-- Witness for C2 at `"mid1A"`: base octave 3, class A, scientific octave 2. -/
theorem alternative_base_octave_correction_witness :
    ("mid1A".data.length ≤ 2 ^ 63 - 1) ∧ parse_alternative "mid1A".data = .ok ⟨2, .A⟩ ∧
      ∃ b, base_octave_of ("mid1A".data.takeWhile notClassChar) = some b ∧
        (Pitch.mk 2 .A).octave =
          if isHighClass (Pitch.mk 2 .A).pitch_class then b - 1 else b :=
  ⟨by decide, rfl, alternative_base_octave_correction.1 _ _ (by decide) rfl⟩

/-- C3: at `"lowlowlowA"` (base octave 0 with a class in A, A#, B) the code
reaches the unchecked `base_octave - 1` with `base_octave = 0`
(src/pitch.rs line 193): the `usize` subtraction underflows — a panic under
debug assertions, a wrap to `2^64 - 1` in release builds, where the result is
then rejected only by the later `> u8::MAX` ceiling. The claim's clean,
wrap-free failure is not what the code does. -/
theorem lowlowlow_high_class_underflow :
    alt_subtraction_underflows "lowlowlowA".data = true ∧
      parse_alternative "lowlowlowA".data = .error ⟨⟩ :=
  ⟨rfl, rfl⟩

/-- C4: for every `Pitch` with octave in `[0, 255]`, parsing the
scientific-notation rendering succeeds, yields exactly the same pitch, and
the detected format is `Scientific`. -/
theorem scientific_round_trip (o : Nat) (pc : PitchClass) (h : o ≤ 255) :
    detect_and_parse (render_scientific ⟨o, pc⟩) = .ok ⟨⟨o, pc⟩, .Scientific⟩ :=
  detect_of_scientific _ _ (parse_scientific_render ⟨o, pc⟩ h)

/-- Witness for C4 at the maximal octave with a sharped class. -/
theorem scientific_round_trip_witness :
    255 ≤ 255 ∧
      detect_and_parse (render_scientific ⟨255, .CSharp⟩) =
        .ok ⟨⟨255, .CSharp⟩, .Scientific⟩ :=
  ⟨by decide, scientific_round_trip 255 .CSharp (by decide)⟩

/-- C5: the pitch-class codec's render and parse are exact inverses over the
12 canonical sharp-only spellings. -/
theorem pitch_class_round_trip (pc : PitchClass) :
    parse_pitch_class (render_pitch_class pc) = .ok pc := by
  cases pc <;> rfl

/-- C6: scientific parsing enforces the 8-bit ceiling: `"C256"` fails (also
under format detection), `"C255"` succeeds with octave 255 and class C, and
the rendering of any octave above 255 is rejected. -/
theorem octave_ceiling :
    parse_scientific "C256".data = .error ⟨⟩ ∧
      detect_and_parse "C256".data = .error ⟨⟩ ∧
      parse_scientific "C255".data = .ok ⟨255, .C⟩ ∧
      (∀ (pc : PitchClass) (n : Nat), 255 < n →
        parse_scientific (render_scientific ⟨n, pc⟩) = .error ⟨⟩) :=
  ⟨rfl, rfl, rfl, fun pc n h => parse_scientific_render_overflow pc n h⟩

/-- Witness for C6's universal part at octave 256, class C. -/
theorem octave_ceiling_witness :
    255 < 256 ∧ parse_scientific (render_scientific ⟨256, .C⟩) = .error ⟨⟩ :=
  ⟨by decide, octave_ceiling.2.2.2 .C 256 (by decide)⟩

/-- C7: the two grammars' accepted languages are disjoint: on every input at
least one of the two parsers fails (the error type has a single value). -/
theorem grammars_disjoint (s : List Char) :
    parse_scientific s = .error ⟨⟩ ∨ parse_alternative s = .error ⟨⟩ := by
  cases s with
  | nil => exact Or.inl rfl
  | cons c t =>
      by_cases hc : isUpperAG c = true
      · right
        have ht : (c :: t).takeWhile notClassChar = [] :=
          List.takeWhile_cons_of_neg (by simp [notClassChar, hc])
        have hreg : isRegisterShape ([] : List Char) = false := rfl
        simp [parse_alternative, ht, hreg]
      · exact Or.inl (parse_scientific_head_err c t (by simpa using hc))

/-- C8: format detection tries the scientific grammar first and tags
`Scientific`; otherwise it tries the alternative grammar and tags
`Alternative`; it fails iff neither grammar accepts, and the unified
parse-error type has exactly one value, so the underlying failure reason is
not distinguished. -/
theorem format_detection_spec :
    (∀ (s : List Char) (p : Pitch), parse_scientific s = .ok p →
        detect_and_parse s = .ok ⟨p, .Scientific⟩) ∧
      (∀ (s : List Char) (p : Pitch), parse_scientific s = .error ⟨⟩ →
        parse_alternative s = .ok p → detect_and_parse s = .ok ⟨p, .Alternative⟩) ∧
      (∀ s : List Char, detect_and_parse s = .error ⟨⟩ ↔
        parse_scientific s = .error ⟨⟩ ∧ parse_alternative s = .error ⟨⟩) ∧
      (∀ e1 e2 : ParsePitchError, e1 = e2) :=
  ⟨detect_of_scientific, detect_of_alternative, detect_error_iff, fun _ _ => rfl⟩

/-- Witness for C8 at `"hiC"`: scientific fails, alternative succeeds, the
detected format is `Alternative`. -/
theorem format_detection_spec_witness :
    parse_scientific "hiC".data = .error ⟨⟩ ∧
      parse_alternative "hiC".data = .ok ⟨5, .C⟩ ∧
      detect_and_parse "hiC".data = .ok ⟨⟨5, .C⟩, .Alternative⟩ :=
  ⟨rfl, rfl, format_detection_spec.2.1 _ _ rfl rfl⟩

/-- C9: parsing is case-sensitive: the lower-casing of any string — in
particular of any valid spelling or valid notation string — is rejected by
the class codec and by both grammars; e.g. `"c4"` and `"hic"` fail. -/
theorem case_sensitivity :
    (∀ pc : PitchClass, parse_pitch_class (lowerChars (render_pitch_class pc)) = .error ⟨⟩) ∧
      (∀ s : List Char, parse_scientific (lowerChars s) = .error ⟨⟩) ∧
      (∀ s : List Char, parse_alternative (lowerChars s) = .error ⟨⟩) ∧
      detect_and_parse "c4".data = .error ⟨⟩ ∧
      detect_and_parse "hic".data = .error ⟨⟩ :=
  ⟨fun pc => by cases pc <;> rfl, parse_scientific_lower, parse_alternative_lower, rfl, rfl⟩

/-- C10: rendering is total up to the `u8` maximum: the register correction is
computed in the wider 16-bit width, so for any representable octave the
`mod 2^16` does nothing (no overflow), and octave 255 with a class in
A, A#, B renders as exactly 252 repetitions of `hi` followed by the class
spelling. -/
theorem render_alternative_total_max_octave (p : Pitch) (h : p.octave ≤ 255) :
    corrected_octave p = (if isHighClass p.pitch_class then p.octave + 1 else p.octave) ∧
      (p.octave = 255 → isHighClass p.pitch_class = true →
        render_alternative p = hiChars 252 ++ p.pitch_class.as_str) := by
  constructor
  · rw [corrected_octave]
    split <;> omega
  · intro h255 hh
    rw [render_alternative, corrected_octave, if_pos hh, h255]
    have h256 : (255 + 1) % 2 ^ 16 = 256 := by norm_num
    rw [h256]
    have hreg : register_chars 256 = hiChars 252 := rfl
    rw [hreg]

/-- Witness for C10 at octave 255, class A. -/
theorem render_alternative_total_max_octave_witness :
    (Pitch.mk 255 .A).octave ≤ 255 ∧
      corrected_octave ⟨255, .A⟩ = 256 ∧
      render_alternative ⟨255, .A⟩ = hiChars 252 ++ PitchClass.A.as_str := by
  refine ⟨by decide, ?_, ?_⟩
  · have h := (render_alternative_total_max_octave ⟨255, .A⟩ (by decide)).1
    simpa using h
  · exact (render_alternative_total_max_octave ⟨255, .A⟩ (by decide)).2 rfl rfl

end Pitchconv
